import Mathlib

/-!
Verification of the noodles CRAM entropy-coding and slice-record-codec core.

Shallow embedding of:
- `noodles-cram/src/codecs/aac/encode.rs` (adaptive arithmetic coder, encode side);
- `noodles-cram/src/codecs/rans_nx16/decode/order_1.rs` (interleaved rANS Nx16,
  order-1 decode and its frequency-table reader);
- `noodles-cram/src/io/writer/container/slice/records.rs` (slice record writer:
  alignment-start deltas, tag-set lookup, mapped-read feature positions).

Machine integers are modelled as `Nat`/`Int` with explicit `% 2^w` where the Rust
code relies on wrapping; fallible Rust paths (`io::Result`, panics) are modelled
with `Except`/`Option`, with a distinguished constructor for each panic site.

Support code of the repository that is not part of this corpus (the aac
`Model`/`RangeCoder`/`Flags` modules, `write_uint7`/`read_uint7`, the rANS Nx16
helpers and order-0 decoder, `normalize_frequencies`, `read_alphabet`) is
modelled from the specification; each such definition carries a doc comment
starting with `Modelled from the spec:`.
-/

/-- Decidable equality of `Except` results (not provided by the core library). -/
instance {ε α : Type} [DecidableEq ε] [DecidableEq α] : DecidableEq (Except ε α) :=
  fun a b =>
    match a, b with
    | .error e1, .error e2 =>
      if h : e1 = e2 then isTrue (by rw [h])
      else isFalse (fun hc => h (Except.error.inj hc))
    | .ok x, .ok y =>
      if h : x = y then isTrue (by rw [h])
      else isFalse (fun hc => h (Except.ok.inj hc))
    | .error _, .ok _ => isFalse (fun hc => Except.noConfusion hc)
    | .ok _, .error _ => isFalse (fun hc => Except.noConfusion hc)

namespace Aac

/-- Modelled from the spec: `write_uint7`, the variable-length unsigned integer
writer used for the uncompressed length ("base-128 continuation groups,
least-significant group first", §4.1). The source of `writer::num::write_uint7`
is not part of this corpus. -/
def writeUint7Go : Nat → Nat → List Nat
  | 0, n => [n % 128]
  | fuel + 1, n =>
    if n < 128 then [n]
    else (n % 128 + 128) :: writeUint7Go fuel (n / 128)

def writeUint7 (n : Nat) : List Nat :=
  writeUint7Go 5 n

/-- Modelled from the spec: the transform-flag bitmask of the adaptive coder
(§4.1: NO_SIZE, STRIPE, PACK, CAT, EXT, RLE, ORDER). The source of
`aac::Flags` is not part of this corpus; the bit values are fixed by the
golden vectors (ORDER = 0x01, CAT = 0x20) and the `test_encode_ext` test
(EXT = 0x04). -/
structure Flags where
  order : Bool
  ext : Bool
  stripe : Bool
  noSize : Bool
  cat : Bool
  rle : Bool
  pack : Bool
deriving DecidableEq, Repr

/-- `u8::from(flags)`: the flag byte. -/
def flagsByte (f : Flags) : Nat :=
  (if f.order then 1 else 0) + (if f.ext then 4 else 0) +
    (if f.stripe then 8 else 0) + (if f.noSize then 16 else 0) +
    (if f.cat then 32 else 0) + (if f.rle then 64 else 0) +
    (if f.pack then 128 else 0)

/-- Modelled from the spec: the range coder driven by the adaptive models
(§4.1 "range-coded byte stream", glossary "a cumulative-frequency-interval
entropy coder"). The source of `aac::RangeCoder` is not part of this corpus;
this reconstruction (64-bit low with an 8-bit carry cache, 2^24 renormalization
threshold, five flush shifts) is validated byte-for-byte against the golden
vectors of §8 in `c2_golden_vectors`. -/
structure RangeCoder where
  low : Nat
  range : Nat
  cache : Nat
  cacheSize : Nat
deriving DecidableEq, Repr

def RangeCoder.init : RangeCoder :=
  { low := 0, range := 4294967295, cache := 0, cacheSize := 1 }

/-- Modelled from the spec: one carry-resolving output shift of the range
coder. Emits the cached byte (plus carry) and any pending 0xFF run, then keeps
the low 32 bits shifted up by one byte. -/
def RangeCoder.shiftLow (rc : RangeCoder) : RangeCoder × List Nat :=
  let inWindow := rc.low % 4294967296
  let carry := rc.low / 4294967296
  if inWindow < 4278190080 ∨ carry ≠ 0 then
    ({ low := inWindow * 256 % 4294967296
       range := rc.range
       cache := rc.low / 16777216 % 256
       cacheSize := 1 },
     ((rc.cache + carry) % 256) ::
       List.replicate (rc.cacheSize - 1) ((255 + carry) % 256))
  else
    ({ rc with low := inWindow * 256 % 4294967296, cacheSize := rc.cacheSize + 1 },
     [])

/-- Modelled from the spec: renormalization loop of the range encoder — shift
the range up by one byte (emitting via `shiftLow`) while it is below 2^24. The
fuel bound 5 is never reached: the coder invariant keeps the range positive, so
at most three shifts restore `range ≥ 2^24`. -/
def renormGo : Nat → RangeCoder → RangeCoder × List Nat
  | 0, rc => (rc, [])
  | fuel + 1, rc =>
    if rc.range < 16777216 then
      let rc1 := { rc with range := rc.range * 256 % 4294967296 }
      let (rc2, bytes) := rc1.shiftLow
      let (rc3, rest) := renormGo fuel rc2
      (rc3, bytes ++ rest)
    else (rc, [])

/-- Modelled from the spec: encode one symbol interval
(cumulative frequency, frequency, total) and renormalize. -/
def RangeCoder.encodeRange (rc : RangeCoder) (cum freq total : Nat) :
    RangeCoder × List Nat :=
  let r := rc.range / total
  renormGo 5 { rc with low := rc.low + cum * r, range := r * freq }

/-- Modelled from the spec: `range_encode_end` — five final output shifts flush
the remaining low bits. -/
def rangeEncodeEndGo : Nat → RangeCoder → List Nat
  | 0, _ => []
  | k + 1, rc =>
    let (rc1, bytes) := rc.shiftLow
    bytes ++ rangeEncodeEndGo k rc1

def rangeEncodeEnd (rc : RangeCoder) : List Nat :=
  rangeEncodeEndGo 5 rc

/-- Adaptive-model frequency increment per coded symbol. -/
def step : Nat := 16

/-- Total-frequency bound that triggers halving; its exact value is immaterial
to every claim here (never reached on the inputs the theorems evaluate). -/
def maxFreqLimit : Nat := 65519

/-- Modelled from the spec: the adaptive order-0 context model (§4.1 "one
context model", "adaptive modeling"). Entries are (symbol, frequency) pairs
kept approximately sorted by descending frequency; the source of `aac::Model`
is not part of this corpus. Validated against the golden vectors in
`c2_golden_vectors`. -/
structure Model where
  totalFrequency : Nat
  entries : List (Nat × Nat)
deriving DecidableEq, Repr

/-- `Model::new(max_sym)`: symbols `0..=max_sym`, each with frequency 1. -/
def Model.new (maxSym : Nat) : Model :=
  { totalFrequency := maxSym + 1
    entries := (List.range (maxSym + 1)).map (fun s => (s, 1)) }

/-- Linear scan for a symbol: returns (index, cumulative frequency before it,
its frequency); `none` models the out-of-bounds panic of the Rust scan when the
symbol is absent. -/
def scanEntries : List (Nat × Nat) → Nat → Option (Nat × Nat × Nat)
  | [], _ => none
  | (s, f) :: rest, sym =>
    if s = sym then some (0, 0, f)
    else
      match scanEntries rest sym with
      | none => none
      | some (i, acc, fr) => some (i + 1, f + acc, fr)

/-- Bump the frequency at index `i` by `step`. -/
def bumpAt (entries : List (Nat × Nat)) (i : Nat) : List (Nat × Nat) :=
  match entries.get? i with
  | none => entries
  | some (s, f) => entries.set i (s, f + step)

/-- Halve every frequency upward (`f -= f / 2`) and recompute the total. -/
def normalizeModel (m : Model) : Model :=
  let es := m.entries.map (fun e => (e.1, e.2 - e.2 / 2))
  { totalFrequency := es.foldl (fun a e => a + e.2) 0, entries := es }

/-- Keep the entry list approximately sorted: swap entry `i` with its
predecessor when its frequency now exceeds the predecessor's. -/
def maybeSwap (es : List (Nat × Nat)) (i : Nat) : List (Nat × Nat) :=
  match i with
  | 0 => es
  | j + 1 =>
    match es.get? (j + 1), es.get? j with
    | some a, some b => if a.2 > b.2 then (es.set (j + 1) b).set j a else es
    | _, _ => es

/-- Modelled from the spec: encode one symbol through the adaptive model —
emit its interval, bump its frequency by `step`, halve all frequencies when the
total exceeds `maxFreqLimit`, and bubble the entry one slot forward. -/
def Model.encodeSym (m : Model) (rc : RangeCoder) (sym : Nat) :
    Option (Model × RangeCoder × List Nat) :=
  match scanEntries m.entries sym with
  | none => none
  | some (i, acc, f) =>
    let (rc1, bytes) := rc.encodeRange acc f m.totalFrequency
    let m1 : Model :=
      { totalFrequency := m.totalFrequency + step, entries := bumpAt m.entries i }
    let m2 := if m1.totalFrequency > maxFreqLimit then normalizeModel m1 else m1
    some ({ m2 with entries := maybeSwap m2.entries i }, rc1, bytes)

/-- Errors of the embedded encoder. `panicTodo` models the `todo!` panics of
`encode.rs` (so a panic, not a returned error); `panicIndexOutOfBounds` models
slice-index panics; `unsupportedFeature` is the spec's §7 taxonomy entry, which
no path of `encode.rs` actually produces; `extUnmodelled`/`packUnmodelled` mark
the two branches delegating to code outside this corpus (the external bzip2
compressor and `rans_nx16::encode::encode_pack`), which no claim exercises. -/
inductive TodoKind
  | stripe
  | rle0
  | rle1
deriving DecidableEq, Repr

inductive EncodeError
  | invalidInput
  | unsupportedFeature
  | panicTodo (kind : TodoKind)
  | panicIndexOutOfBounds
  | extUnmodelled
  | packUnmodelled
deriving DecidableEq, Repr

/-- The order-0 coding loop of `encode_order_0`: one model over the whole
input, threading the range coder and collecting the emitted bytes. -/
def order0Go : List Nat → Model → RangeCoder → Option (RangeCoder × List Nat)
  | [], _, rc => some (rc, [])
  | s :: rest, m, rc =>
    match m.encodeSym rc s with
    | none => none
    | some (m1, rc1, bytes) =>
      match order0Go rest m1 rc1 with
      | none => none
      | some (rcF, more) => some (rcF, bytes ++ more)

/-- `encode_order_0` (encode.rs lines 68–82): write `max_sym + 1` (as a byte,
`max_sym` being the maximum of the input, 0 for the empty input), then the
range-coded stream, then the coder flush. -/
def encodeOrder0 (src : List Nat) : Except EncodeError (List Nat) :=
  match order0Go src (Model.new (src.foldl Nat.max 0)) RangeCoder.init with
  | none => .error .panicIndexOutOfBounds
  | some (rcF, bytes) =>
    .ok (((src.foldl Nat.max 0 + 1) % 256) :: (bytes ++ rangeEncodeEnd rcF))

/-- The order-1 coding loop of `encode_order_1`: the model used for each symbol
is selected by the previous symbol (`models[0].encode(src[0])` then one step
per `windows(2)` pair). -/
def order1Go : Nat → List Nat → List Model → RangeCoder →
    Option (RangeCoder × List Nat)
  | _, [], _, rc => some (rc, [])
  | prev, s :: rest, models, rc =>
    match models.get? prev with
    | none => none
    | some m =>
      match m.encodeSym rc s with
      | none => none
      | some (m1, rc1, bytes) =>
        match order1Go s rest (models.set prev m1) rc1 with
        | none => none
        | some (rcF, more) => some (rcF, bytes ++ more)

/-- `encode_order_1` (encode.rs lines 84–104): write `max_sym + 1`, build
`max_sym + 1` models, encode `src[0]` with model 0 and each later symbol with
the model of its predecessor. On empty input the Rust `src[0]` panics (index
out of bounds): modelled as `panicIndexOutOfBounds`, produced before any
output. -/
def encodeOrder1 (src : List Nat) : Except EncodeError (List Nat) :=
  match src with
  | [] => .error .panicIndexOutOfBounds
  | s0 :: rest =>
    match order1Go 0 (s0 :: rest)
        (List.replicate ((s0 :: rest).foldl Nat.max 0 + 1)
          (Model.new ((s0 :: rest).foldl Nat.max 0)))
        RangeCoder.init with
    | none => .error .panicIndexOutOfBounds
    | some (rcF, bytes) =>
      .ok ((((s0 :: rest).foldl Nat.max 0 + 1) % 256) :: (bytes ++ rangeEncodeEnd rcF))

/-- `encode` (encode.rs lines 9–56): flag byte; uint7 length unless NO_SIZE
(with the `u32::try_from` failure); then the transform dispatch in source
order — STRIPE `todo!`, PACK (`encode_pack`, outside this corpus), CAT raw
bytes, EXT (external bzip2, outside this corpus), RLE `todo!` (order-1 or
order-0 variant), ORDER, order-0. -/
def encode (flags : Flags) (src : List Nat) : Except EncodeError (List Nat) :=
  let dst0 := [flagsByte flags]
  if flags.noSize = false ∧ 4294967296 ≤ src.length then .error .invalidInput
  else
    let dst1 := if flags.noSize then dst0 else dst0 ++ writeUint7 src.length
    if flags.stripe then .error (.panicTodo .stripe)
    else if flags.pack then .error .packUnmodelled
    else if flags.cat then .ok (dst1 ++ src)
    else if flags.ext then .error .extUnmodelled
    else if flags.rle then .error (.panicTodo (if flags.order then .rle1 else .rle0))
    else if flags.order then
      match encodeOrder1 src with
      | .error e => .error e
      | .ok body => .ok (dst1 ++ body)
    else
      match encodeOrder0 src with
      | .error e => .error e
      | .ok body => .ok (dst1 ++ body)

/-- `Flags::empty()`. -/
def flagsNone : Flags :=
  { order := false, ext := false, stripe := false, noSize := false,
    cat := false, rle := false, pack := false }

/-- `Flags::ORDER`. -/
def flagsOrder : Flags :=
  { flagsNone with order := true }

/-- `Flags::CAT`. -/
def flagsCat : Flags :=
  { flagsNone with cat := true }

/-- `Flags::STRIPE`. -/
def flagsStripe : Flags :=
  { flagsNone with stripe := true }

/-- `Flags::RLE`. -/
def flagsRle : Flags :=
  { flagsNone with rle := true }

/-- The bytes of `"noodles"`. -/
def noodlesBytes : List Nat := [0x6e, 0x6f, 0x6f, 0x64, 0x6c, 0x65, 0x73]

/-- The first byte of a successful encoder body, if any. -/
def firstBodyByte : Except EncodeError (List Nat) → Option Nat
  | .ok l => l.head?
  | .error _ => none

end Aac

namespace RansNx16

/-- Modelled from the spec: `read_uint7`, the variable-length unsigned integer
reader (§4.1 "base-128 continuation groups, least-significant group first").
The source of `reader::num::read_uint7` is not part of this corpus. Returns the
value and the remaining input, `none` on premature end of input. -/
def readUint7 : List Nat → Option (Nat × List Nat)
  | [] => none
  | b :: rest =>
    if b < 128 then some (b, rest)
    else
      match readUint7 rest with
      | none => none
      | some (v, r) => some (b % 128 + v * 128, r)

def readU8 : List Nat → Option (Nat × List Nat)
  | [] => none
  | b :: rest => some (b, rest)

def readU16le : List Nat → Option (Nat × List Nat)
  | b0 :: b1 :: rest => some (b0 + 256 * b1, rest)
  | _ => none

def readU32le : List Nat → Option (Nat × List Nat)
  | b0 :: b1 :: b2 :: b3 :: rest =>
    some (b0 + 256 * b1 + 65536 * b2 + 16777216 * b3, rest)
  | _ => none

/-- The bits of one byte, least-significant first. -/
def byteBits (b : Nat) : List Bool :=
  (List.range 8).map (fun i => b / 2 ^ i % 2 = 1)

/-- Modelled from the spec: `read_alphabet` — the "256-bit presence bitmap"
of §4.1, read as 32 bytes, bit `i` of the bitmap marking symbol `i` present.
The source of `rans_nx16::decode::read_alphabet` is not part of this corpus. -/
def readAlphabet (reader : List Nat) : Option (List Bool × List Nat) :=
  if 32 ≤ reader.length then some ((reader.take 32).flatMap byteBits, reader.drop 32)
  else none

/-- Modelled from the spec: `normalize_frequencies` — "the table is normalized
so its 256 entries sum to exactly 2^bits" (§4.1), "for any non-empty input"
(§8). The source of `order_0::normalize_frequencies` is not part of this
corpus; the concrete scaling (cumulative proportional rounding) is chosen so
the postcondition holds exactly. A zero-sum table (empty input) is returned
unchanged. -/
def normAux (total target : Nat) : List Nat → Nat → List Nat
  | [], _ => []
  | f :: rest, acc =>
    ((acc + f) * target / total - acc * target / total) ::
      normAux total target rest (acc + f)

def normalizeFrequencies (freqs : List Nat) (bits : Nat) : List Nat :=
  if freqs.sum = 0 then freqs
  else normAux freqs.sum (2 ^ bits) freqs 0

/-- The cumulative-frequency array as built by the source (order_1.rs lines
156–160): `cum[0] = 0`, `cum[j+1] = cum[j] + freq[j]` for `j < 255`. -/
def buildCumGo (acc : Nat) : List Nat → List Nat
  | [] => [acc]
  | f :: rest => acc :: buildCumGo (acc + f) rest

def buildCum (freqs : List Nat) : List Nat :=
  buildCumGo 0 (freqs.take 255)

/-- The cumulative-frequency array as the claim states it: entry `j` is the
sum of the first `j` normalized frequencies. -/
def cumSpec (freqs : List Nat) : List Nat :=
  (List.range 256).map (fun j => (freqs.take j).sum)

/-- The per-context row parse loop of `read_frequencies_inner` (order_1.rs
lines 134–151), one entry per alphabet position: a present position either
consumes a pending zero-run step (entry 0, nothing read) or reads a uint7
frequency, reading one run-length byte after a zero frequency; an absent
position gets entry 0 and leaves the run untouched. -/
def parseRow (run : Nat) : List Bool → List Nat → Option (List Nat × List Nat)
  | [], reader => some ([], reader)
  | present :: bs, reader =>
    if present then
      if 0 < run then
        match parseRow (run - 1) bs reader with
        | none => none
        | some (row, r1) => some (0 :: row, r1)
      else
        match readUint7 reader with
        | none => none
        | some (f, r1) =>
          if f = 0 then
            match readU8 r1 with
            | none => none
            | some (rb, r2) =>
              match parseRow rb bs r2 with
              | none => none
              | some (row, r3) => some (f :: row, r3)
          else
            match parseRow 0 bs r1 with
            | none => none
            | some (row, r2) => some (f :: row, r2)
    else
      match parseRow run bs reader with
      | none => none
      | some (row, r1) => some (0 :: row, r1)

mutual

/-- The same row format, phrased as the claim phrases it: each present symbol
carries a uint7 frequency, and a zero frequency is followed by one run-length
byte assigning frequency 0 to that many subsequent present symbols with no
further reads (`specZeros`). -/
def specRowFull : List Bool → List Nat → Option (List Nat × List Nat)
  | [], reader => some ([], reader)
  | present :: bs, reader =>
    if present then
      match readUint7 reader with
      | none => none
      | some (f, r1) =>
        if f = 0 then
          match readU8 r1 with
          | none => none
          | some (rb, r2) =>
            match specZeros rb bs r2 with
            | none => none
            | some (row, r3) => some (f :: row, r3)
        else
          match specRowFull bs r1 with
          | none => none
          | some (row, r2) => some (f :: row, r2)
    else
      match specRowFull bs reader with
      | none => none
      | some (row, r1) => some (0 :: row, r1)
termination_by bs _ => (bs.length, 0)

/-- Assign frequency 0 to the next `run` present symbols, reading nothing. -/
def specZeros : Nat → List Bool → List Nat → Option (List Nat × List Nat)
  | 0, bs, reader => specRowFull bs reader
  | _ + 1, [], reader => some ([], reader)
  | k + 1, present :: bs, reader =>
    if present then
      match specZeros k bs reader with
      | none => none
      | some (row, r1) => some (0 :: row, r1)
    else
      match specZeros (k + 1) bs reader with
      | none => none
      | some (row, r1) => some (0 :: row, r1)
termination_by _ bs _ => (bs.length, 1)

end

/-- The indices marked present by the alphabet, in order (the
`alphabet.iter().enumerate()` filter of the source). -/
def presentIndices (alphabet : List Bool) : List Nat :=
  alphabet.enum.filterMap (fun p => if p.2 then some p.1 else none)

/-- A frequency table: the list of parsed context rows
`(context, normalized frequencies, cumulative frequencies)`, in parse order.
Contexts not in the alphabet keep the all-zero rows the source preallocates. -/
abbrev FreqTable := List (Nat × List Nat × List Nat)

/-- The outer row loop of `read_frequencies_inner` (order_1.rs lines
129–161), source-shaped: for each present context, parse its row with the
run-state machine, normalize it, and build the cumulative array with the
source's `j`-loop. -/
def readRows (bits : Nat) (alphabet : List Bool) :
    List Nat → List Nat → Option (FreqTable × List Nat)
  | [], reader => some ([], reader)
  | i :: is, reader =>
    match parseRow 0 alphabet reader with
    | none => none
    | some (raw, r1) =>
      let f := normalizeFrequencies raw bits
      match readRows bits alphabet is r1 with
      | none => none
      | some (rows, r2) => some ((i, f, buildCum f) :: rows, r2)

/-- The outer row loop as the claim phrases it: the row format of
`specRowFull`, normalization, and the prefix-sum cumulative array. -/
def readRowsSpec (bits : Nat) (alphabet : List Bool) :
    List Nat → List Nat → Option (FreqTable × List Nat)
  | [], reader => some ([], reader)
  | i :: is, reader =>
    match specRowFull alphabet reader with
    | none => none
    | some (raw, r1) =>
      let f := normalizeFrequencies raw bits
      match readRowsSpec bits alphabet is r1 with
      | none => none
      | some (rows, r2) => some ((i, f, cumSpec f) :: rows, r2)

/-- `read_frequencies_inner` (order_1.rs lines 116–164): read the alphabet,
then one row per present context. -/
def readFrequenciesInner (bits : Nat) (reader : List Nat) :
    Option (FreqTable × List Nat) :=
  match readAlphabet reader with
  | none => none
  | some (alphabet, r1) => readRows bits alphabet (presentIndices alphabet) r1

/-- `read_frequencies_inner` as the claim phrases it. -/
def readFrequenciesInnerSpec (bits : Nat) (reader : List Nat) :
    Option (FreqTable × List Nat) :=
  match readAlphabet reader with
  | none => none
  | some (alphabet, r1) => readRowsSpec bits alphabet (presentIndices alphabet) r1

/-- The normalized frequency row of a context (all zeros when the context was
not parsed, as in the source's preallocated table). -/
def rowFreqs (tbl : FreqTable) (i : Nat) : List Nat :=
  match tbl.find? (fun r => r.1 == i) with
  | some r => r.2.1
  | none => List.replicate 256 0

/-- The cumulative row of a context. -/
def rowCums (tbl : FreqTable) (i : Nat) : List Nat :=
  match tbl.find? (fun r => r.1 == i) with
  | some r => r.2.2
  | none => List.replicate 256 0

/-- Modelled from the spec: `rans_get_cumulative_freq_nx16` — "compute the
state's position within the cumulative-frequency range" (§4.1): the low `bits`
bits of the state. Its source is not part of this corpus. -/
def ransGetCumulativeFreq (state bits : Nat) : Nat :=
  state % 2 ^ bits

/-- Modelled from the spec: `rans_get_symbol_from_freq` — linear search over
the cumulative table (§4.1): the largest symbol below 255 whose successor
cumulative entry is still ≤ the target. -/
def symbolFromFreqGo (cums : List Nat) (f sym : Nat) : Nat :=
  if sym < 255 then
    if cums.getD (sym + 1) 0 ≤ f then symbolFromFreqGo cums f (sym + 1) else sym
  else sym
termination_by 255 - sym

def symbolFromFreq (cums : List Nat) (f : Nat) : Nat :=
  symbolFromFreqGo cums f 0

/-- Modelled from the spec: `rans_advance_step_nx16` — "advance the state
using that symbol's frequency and cumulative offset" (§4.1):
`freq * (state >> bits) + (state & mask) - cum`, in u32 arithmetic (truncated
subtraction stands in for the underflow that only a malformed table can
cause). -/
def ransAdvanceStep (state cum freq bits : Nat) : Nat :=
  (freq * (state / 2 ^ bits) + state % 2 ^ bits - cum) % 4294967296

/-- Modelled from the spec: `rans_renorm_nx16` — "renormalize by consuming
additional input bytes whenever the state falls below a fixed threshold", with
the Nx16 variant's 16-bit granularity and 2^15 threshold (§4.1). -/
def ransRenorm (state : Nat) (reader : List Nat) : Option (Nat × List Nat) :=
  if state < 32768 then
    match readU16le reader with
    | none => none
    | some (w, r1) => some (state * 65536 + w, r1)
  else some (state, reader)

/-- One decode step of one lane (order_1.rs lines 32–46 and 56–70): select the
symbol via the cumulative table of the lane's last symbol, advance, and
renormalize. Returns the symbol, the new state and the remaining input. -/
def laneStep (tbl : FreqTable) (bits lastSym state : Nat) (reader : List Nat) :
    Option (Nat × Nat × List Nat) :=
  let f := ransGetCumulativeFreq state bits
  let cums := rowCums tbl lastSym
  let s := symbolFromFreq cums f
  let st1 := ransAdvanceStep state (cums.getD s 0) ((rowFreqs tbl lastSym).getD s 0) bits
  match ransRenorm st1 reader with
  | none => none
  | some (st2, r1) => some (s, st2, r1)

/-- The n little-endian 32-bit lane-state reads (order_1.rs lines 21–25). -/
def readStatesGo : Nat → List Nat → Option (List Nat × List Nat)
  | 0, reader => some ([], reader)
  | k + 1, reader =>
    match readU32le reader with
    | none => none
    | some (w, r1) =>
      match readStatesGo k r1 with
      | none => none
      | some (ws, r2) => some (w :: ws, r2)

/-- The interleaved loop state: lane states, last symbol per lane, the output
buffer, and the remaining input. -/
abbrev LoopState := List Nat × List Nat × List Nat × List Nat

/-- One main-loop cycle (order_1.rs lines 31–47): for each lane `j` in order,
one `laneStep` with the lane's state and last symbol, writing the symbol at
`i + j * (len / n)`. -/
def cycleLanes (tbl : FreqTable) (bits len n i : Nat) :
    List Nat → LoopState → Option LoopState
  | [], st => some st
  | j :: js, (states, lastSyms, output, reader) =>
    match laneStep tbl bits (lastSyms.getD j 0) (states.getD j 0) reader with
    | none => none
    | some (s, st2, r1) =>
      cycleLanes tbl bits len n i js
        (states.set j st2, lastSyms.set j s, output.set (i + j * (len / n)) s, r1)

/-- The main interleaved loop (order_1.rs lines 27–50): cycles while
`i < len / n`, driving every lane once per cycle. -/
def mainLoopGo (tbl : FreqTable) (bits len n : Nat) (i : Nat) (st : LoopState) :
    Option LoopState :=
  if i < len / n then
    match cycleLanes tbl bits len n i (List.range n) st with
    | none => none
    | some st1 => mainLoopGo tbl bits len n (i + 1) st1
  else some st
termination_by len / n - i

/-- The remainder loop (order_1.rs lines 52–73): continue driving only lane
`n - 1`, writing at absolute positions while `i < len`. -/
def tailLoopGo (tbl : FreqTable) (bits len n : Nat) (i : Nat) (st : LoopState) :
    Option LoopState :=
  if i < len then
    match st with
    | (states, lastSyms, output, reader) =>
      match laneStep tbl bits (lastSyms.getD (n - 1) 0) (states.getD (n - 1) 0) reader with
      | none => none
      | some (s, st2, r1) =>
        tailLoopGo tbl bits len n (i + 1)
          (states.set (n - 1) st2, lastSyms.set (n - 1) s, output.set i s, r1)
  else some st
termination_by len - i

/-- Modelled from the spec: the order-0 Nx16 frequency table — the shared
table wire format of §4.1 without the per-context dimension: a control byte
whose top nibble is the bit-width, the presence bitmap, one row of uint7
frequencies with zero-run bytes, normalization, prefix sums. A set
table-compression bit at this level is treated as malformed. The source of
`rans_nx16::decode::order_0` is not part of this corpus. -/
def order0ReadFrequencies (reader : List Nat) :
    Option (List Nat × List Nat × Nat × List Nat) :=
  match readU8 reader with
  | none => none
  | some (comp, r1) =>
    let bits := comp / 16
    if comp % 2 = 1 then none
    else
      match readAlphabet r1 with
      | none => none
      | some (alphabet, r2) =>
        match specRowFull alphabet r2 with
        | none => none
        | some (raw, r3) =>
          let f := normalizeFrequencies raw bits
          some (f, cumSpec f, bits, r3)

/-- One decode step against a single (context-free) frequency row. -/
def order0LaneStep (freqs cums : List Nat) (bits state : Nat)
    (reader : List Nat) : Option (Nat × Nat × List Nat) :=
  let f := ransGetCumulativeFreq state bits
  let s := symbolFromFreq cums f
  let st1 := ransAdvanceStep state (cums.getD s 0) (freqs.getD s 0) bits
  match ransRenorm st1 reader with
  | none => none
  | some (st2, r1) => some (s, st2, r1)

def order0Cycle (freqs cums : List Nat) (bits len n i : Nat) :
    List Nat → List Nat × List Nat × List Nat → Option (List Nat × List Nat × List Nat)
  | [], st => some st
  | j :: js, (states, output, reader) =>
    match order0LaneStep freqs cums bits (states.getD j 0) reader with
    | none => none
    | some (s, st2, r1) =>
      order0Cycle freqs cums bits len n i js
        (states.set j st2, output.set (i + j * (len / n)) s, r1)

def order0MainGo (freqs cums : List Nat) (bits len n : Nat) (i : Nat)
    (st : List Nat × List Nat × List Nat) : Option (List Nat × List Nat × List Nat) :=
  if i < len / n then
    match order0Cycle freqs cums bits len n i (List.range n) st with
    | none => none
    | some st1 => order0MainGo freqs cums bits len n (i + 1) st1
  else some st
termination_by len / n - i

def order0TailGo (freqs cums : List Nat) (bits len n : Nat) (i : Nat)
    (st : List Nat × List Nat × List Nat) : Option (List Nat × List Nat × List Nat) :=
  if i < len then
    match st with
    | (states, output, reader) =>
      match order0LaneStep freqs cums bits (states.getD (n - 1) 0) reader with
      | none => none
      | some (s, st2, r1) =>
        order0TailGo freqs cums bits len n (i + 1)
          (states.set (n - 1) st2, output.set i s, r1)
  else some st
termination_by len - i

/-- Modelled from the spec: `order_0::decode` — the n-lane interleaved order-0
decoder used (with n = 4) to decompress a compressed frequency table. Its
source is not part of this corpus; no claim depends on its internals (it is
shared verbatim by the code-shaped and claim-shaped definitions below). -/
def order0Decode (input : List Nat) (outLen n : Nat) : Option (List Nat) :=
  if n = 0 then none
  else
    match order0ReadFrequencies input with
    | none => none
    | some (freqs, cums, bits, r1) =>
      match readStatesGo n r1 with
      | none => none
      | some (states, r2) =>
        match order0MainGo freqs cums bits outLen n 0
            (states, List.replicate outLen 0, r2) with
        | none => none
        | some st1 =>
          match order0TailGo freqs cums bits outLen n ((outLen / n) * n) st1 with
          | none => none
          | some (_, output, _) => some output

/-- `read_frequencies` (order_1.rs lines 78–114), source-shaped: control byte,
`bits = comp >> 4`; if `comp & 0x01 != 0`, two uint7 lengths, `read_exact` of
the compressed bytes, a 4-lane order-0 decode, and the inner parse over the
decoded bytes; otherwise the inner parse in place. Returns the table, the bit
width, and the rest of the outer input. -/
def readFrequencies (reader : List Nat) : Option (FreqTable × Nat × List Nat) :=
  match readU8 reader with
  | none => none
  | some (comp, r1) =>
    let bits := comp >>> 4
    if comp &&& 1 ≠ 0 then
      match readUint7 r1 with
      | none => none
      | some (uSize, r2) =>
        match readUint7 r2 with
        | none => none
        | some (cSize, r3) =>
          if r3.length < cSize then none
          else
            match order0Decode (r3.take cSize) uSize 4 with
            | none => none
            | some uData =>
              match readFrequenciesInner bits uData with
              | none => none
              | some (tbl, _) => some (tbl, bits, r3.drop cSize)
    else
      match readFrequenciesInner bits r1 with
      | none => none
      | some (tbl, rest) => some (tbl, bits, rest)

/-- `read_frequencies` as claim C5 phrases it: the control byte's top nibble is
the bit width and its bit 0 the table-compression flag; when set, the
uncompressed then the compressed length are read as uint7, the compressed
bytes are decoded with a 4-lane order-0 decode, and the tables are parsed from
the resulting bytes; rows follow the `specRowFull` format. -/
def readFrequenciesSpec (reader : List Nat) : Option (FreqTable × Nat × List Nat) :=
  match readU8 reader with
  | none => none
  | some (comp, r1) =>
    let bits := comp / 16
    if comp % 2 = 1 then
      match readUint7 r1 with
      | none => none
      | some (uSize, r2) =>
        match readUint7 r2 with
        | none => none
        | some (cSize, r3) =>
          if r3.length < cSize then none
          else
            match order0Decode (r3.take cSize) uSize 4 with
            | none => none
            | some uData =>
              match readFrequenciesInnerSpec bits uData with
              | none => none
              | some (tbl, _) => some (tbl, bits, r3.drop cSize)
    else
      match readFrequenciesInnerSpec bits r1 with
      | none => none
      | some (tbl, rest) => some (tbl, bits, rest)

/-- `decode` (order_1.rs lines 7–76), source-shaped: the frequency table, n
little-endian 32-bit lane states, the main interleaved loop while
`i < len / n`, then `i *= n` and the remainder loop on lane `n - 1`. `n = 0`
makes the source's `output.len() / n` panic with a division by zero; modelled
as `none`. The output buffer length is hoisted into `len` (writes through
`List.set` preserve it). -/
def decode (reader output : List Nat) (n : Nat) : Option (List Nat) :=
  if n = 0 then none
  else
    match readFrequencies reader with
    | none => none
    | some (tbl, bits, r1) =>
      match readStatesGo n r1 with
      | none => none
      | some (states, r2) =>
        let len := output.length
        match mainLoopGo tbl bits len n 0 (states, List.replicate n 0, output, r2) with
        | none => none
        | some st1 =>
          match tailLoopGo tbl bits len n ((len / n) * n) st1 with
          | none => none
          | some (_, _, output1, _) => some output1

/-- One claim-shaped cycle run: `k` remaining cycles, the next writing at
cycle index `done`; each cycle drives every lane once, in lane order. -/
def specCyclesGo (tbl : FreqTable) (bits len n : Nat) :
    Nat → Nat → LoopState → Option LoopState
  | _, 0, st => some st
  | done, k + 1, st =>
    match cycleLanes tbl bits len n done (List.range n) st with
    | none => none
    | some st1 => specCyclesGo tbl bits len n (done + 1) k st1

/-- The claim-shaped remainder run: `k` remaining symbols, the next written at
position `pos`, all driven on lane `n - 1`. -/
def specTailGo (tbl : FreqTable) (bits len n : Nat) :
    Nat → Nat → LoopState → Option LoopState
  | _, 0, st => some st
  | pos, k + 1, (states, lastSyms, output, reader) =>
    match laneStep tbl bits (lastSyms.getD (n - 1) 0) (states.getD (n - 1) 0) reader with
    | none => none
    | some (s, st2, r1) =>
      specTailGo tbl bits len n (pos + 1) k
        (states.set (n - 1) st2, lastSyms.set (n - 1) s, output.set pos s, r1)

/-- `decode` as claim C4 phrases it: read the frequency tables, initialize the
n lane states from n little-endian 32-bit words, run exactly `len / n` cycles
producing one symbol per lane per cycle, then produce the remaining `len % n`
symbols by continuing to drive only lane `n - 1`; every step selects the
symbol via the cumulative table of the lane's previously decoded symbol
(initially context 0) and renormalizes from the input. -/
def decodeSpec (reader output : List Nat) (n : Nat) : Option (List Nat) :=
  if n = 0 then none
  else
    match readFrequencies reader with
    | none => none
    | some (tbl, bits, r1) =>
      match readStatesGo n r1 with
      | none => none
      | some (states, r2) =>
        let len := output.length
        match specCyclesGo tbl bits len n 0 (len / n)
            (states, List.replicate n 0, output, r2) with
        | none => none
        | some st1 =>
          match specTailGo tbl bits len n (n * (len / n)) (len % n) st1 with
          | none => none
          | some (_, _, output1, _) => some output1

end RansNx16

namespace SliceRecords

/-- `i32::MAX`. -/
def maxI32 : Nat := 2147483647

/-- Errors of the embedded slice record writer. `invalidInput` stands for the
`io::ErrorKind::InvalidInput` conversion failures; `missingTagSet` for the
"missing tag set" `InvalidInput` error of `write_tags` (the spec's §7
InvariantViolation); the two missing-encoding constructors for
`WriteRecordError`. -/
inductive WriteError
  | invalidInput
  | missingTagSet
  | missingTagSetIdsEncoding
  | missingTagEncoding (tag : Nat × Nat) (ty : Nat)
deriving DecidableEq, Repr

/-- `ReferenceSequenceContext` (tri-state; the `Some` payload is reduced to the
`alignment_start` field, the only one `Writer::new` reads). Alignment positions
are 1-based and modelled as `Nat`. -/
inductive ReferenceSequenceContext
  | ctxSome (alignmentStart : Nat)
  | ctxNone
  | ctxMany
deriving DecidableEq, Repr

/-- `Writer::new` (records.rs lines 57–75): the initial `prev_alignment_start`
is the context's alignment start when the context is `Some`, and `None` when
the context is none or many. -/
def initialAlignmentStart : ReferenceSequenceContext → Option Nat
  | .ctxSome start => some start
  | .ctxNone => none
  | .ctxMany => none

/-- `position_to_i32` (records.rs lines 167–170): `i32::try_from` of the
position. -/
def positionToI32 (p : Nat) : Except WriteError Int :=
  if p ≤ maxI32 then .ok (Int.ofNat p) else .error .invalidInput

/-- `.map(position_to_i32).transpose()?.unwrap_or(MISSING)` with MISSING = 0. -/
def startOrMissing : Option Nat → Except WriteError Int
  | none => .ok 0
  | some p => positionToI32 p

/-- The value encoded by `write_alignment_start` (records.rs lines 164–207):
with delta coding, the record's start (0 when missing) minus the previous
start (0 when missing); otherwise the absolute start (0 when missing). -/
def writeAlignmentStartValue (apDelta : Bool) (prev start : Option Nat) :
    Except WriteError Int :=
  if apDelta then
    match startOrMissing start with
    | .error e => .error e
    | .ok s =>
      match startOrMissing prev with
      | .error e => .error e
      | .ok pr => .ok (s - pr)
  else
    match start with
    | some p => positionToI32 p
    | none => .ok 0

/-- The alignment-start projection of `write_record` over a slice (records.rs
lines 77–96): each record contributes one `write_alignment_start` value, and
`prev_alignment_start` is set to the record's alignment start after every
record, mapped or unmapped (line 93). The intervening field writes neither
read nor write `prev_alignment_start`; on an error the slice is aborted, so
later values are not produced. -/
def writeAPDeltas (prev : Option Nat) : List (Option Nat) → Except WriteError (List Int)
  | [] => .ok []
  | start :: rest =>
    match writeAlignmentStartValue true prev start with
    | .error e => .error e
    | .ok d =>
      match writeAPDeltas start rest with
      | .error e => .error e
      | .ok ds => .ok (d :: ds)

/-- The delta-coded alignment-start stream of one slice, with the baseline of
`Writer::new`. -/
def writeSliceAPDeltas (ctx : ReferenceSequenceContext) (starts : List (Option Nat)) :
    Except WriteError (List Int) :=
  writeAPDeltas (initialAlignmentStart ctx) starts

/-- The alignment start as the delta chain sees it: the value, or 0 when
missing. -/
def orZero : Option Nat → Int
  | none => 0
  | some p => Int.ofNat p

/-- The start value the encoder subtracts for record `k`: the baseline before
the first record, the previous record's start after. -/
def prevStartAt (ctx : ReferenceSequenceContext) (starts : List (Option Nat))
    (k : Nat) : Option Nat :=
  match k with
  | 0 => initialAlignmentStart ctx
  | j + 1 => (starts[j]?).getD none

/-- A tag-set key (`tag_sets::Key`): the two-byte tag and the value-type
code. -/
structure TagKey where
  tag : Nat × Nat
  ty : Nat
deriving DecidableEq, Repr

/-- A record's tag value, reduced to what `write_tags` reads of it: its type
code (`value.ty()`) and its serialized bytes. Modelled from the spec: the
BAM-style typed serialization `write_value` is outside this corpus, so a value
is represented directly by its serialization. -/
structure TagValue where
  ty : Nat
  payload : List Nat
deriving DecidableEq, Repr

/-- Modelled from the spec: `block::ContentId::from(key)` — "a content id
derived from (tag key, value type)" (§3); injective in the key. Its source is
not part of this corpus. -/
def contentIdOf (key : TagKey) : Nat :=
  key.tag.1 * 65536 + key.tag.2 * 256 + key.ty

/-- The parts of the compression header `write_tags` consults: the
preservation map's tag sets, whether the TagSetIds data-series encoding is
present, and the content ids having a tag encoding. -/
structure TagsHeader where
  tagSets : List (List TagKey)
  hasTagSetIds : Bool
  tagEncodingIds : List Nat
deriving DecidableEq, Repr

/-- The ordered (tag, value type) list of a record's data (records.rs lines
363–367). -/
def tagSetOf (data : List ((Nat × Nat) × TagValue)) : List TagKey :=
  data.map (fun p => { tag := p.1, ty := p.2.ty })

/-- The per-tag write loop of `write_tags` (records.rs lines 382–398): each
tag's value is serialized and encoded through the encoding bound to its
content id; a missing encoding is an error. Emissions are (content id,
serialized value) pairs. -/
def writeTagsLoop (header : TagsHeader) :
    List (TagKey × TagValue) → Except WriteError (List (Nat × List Nat))
  | [] => .ok []
  | (key, value) :: rest =>
    let cid := contentIdOf key
    if header.tagEncodingIds.contains cid then
      match writeTagsLoop header rest with
      | .error e => .error e
      | .ok es => .ok ((cid, value.payload) :: es)
    else .error (.missingTagEncoding key.tag key.ty)

/-- `Iterator::position` over the tag sets: the index of the first set equal
to the record's tag set. -/
def positionOf (tagSet : List TagKey) : List (List TagKey) → Option Nat
  | [] => none
  | s :: rest =>
    if s = tagSet then some 0
    else
      match positionOf tagSet rest with
      | none => none
      | some i => some (i + 1)

/-- `write_tags` (records.rs lines 360–401): build the record's ordered tag
set, look it up by equality in the header's tag sets (`position`), failing
with the "missing tag set" error when absent — before the tag-set id or any
tag value is written; then write the tag-set id and every tag value. Returns
the tag-set id and the side-stream emissions. -/
def writeTags (header : TagsHeader) (data : List ((Nat × Nat) × TagValue)) :
    Except WriteError (Nat × List (Nat × List Nat)) :=
  match positionOf (tagSetOf data) header.tagSets with
  | none => .error .missingTagSet
  | some tagSetId =>
    if header.hasTagSetIds then
      if tagSetId ≤ maxI32 then
        match writeTagsLoop header ((tagSetOf data).zip (data.map (fun p => p.2))) with
        | .error e => .error e
        | .ok es => .ok (tagSetId, es)
      else .error .invalidInput
    else .error .missingTagSetIdsEncoding

/-- The feature-position projection of `write_mapped_read` (records.rs lines
414–432): `prev_position` starts at 0 and each feature's wire position is
`usize::from(feature.position()) - prev_position`, an unchecked `usize`
subtraction; `none` models the underflow (a panic under Rust's checked
arithmetic). -/
def mappedFeatureDeltasGo (prev : Nat) : List Nat → Option (List Nat)
  | [] => some []
  | p :: rest =>
    if p < prev then none
    else
      match mappedFeatureDeltasGo p rest with
      | none => none
      | some ds => some ((p - prev) :: ds)

def mappedFeatureDeltas (positions : List Nat) : Option (List Nat) :=
  mappedFeatureDeltasGo 0 positions

end SliceRecords

/-! ## Theorems -/

section AacClaims

open Aac

set_option maxRecDepth 100000 in
/-- C2: the adaptive range coder's encode on the bytes of "noodles" produces
exactly the three golden vectors of the spec: flags = 0, flags = ORDER, and
flags = CAT. -/
theorem c2_golden_vectors :
    Aac.encode Aac.flagsNone Aac.noodlesBytes =
      .ok [0x00, 0x07, 0x74, 0x00, 0xf4, 0xe5, 0xb7, 0x4e, 0x50, 0x0f, 0x2e, 0x97, 0x00] ∧
    Aac.encode Aac.flagsOrder Aac.noodlesBytes =
      .ok [0x01, 0x07, 0x74, 0x00, 0xf4, 0xe3, 0x83, 0x41, 0xe2, 0x9a, 0xef, 0x53, 0x50, 0x00] ∧
    Aac.encode Aac.flagsCat Aac.noodlesBytes =
      .ok [0x20, 0x07, 0x6e, 0x6f, 0x6f, 0x64, 0x6c, 0x65, 0x73] :=
  ⟨rfl, rfl, rfl⟩

/-- C1: evaluating the order-1 encoder at the failing input. For the empty
byte sequence in order-1 mode, `encode_order_1` evaluates `src[0]` and panics
with an index out of bounds, so `encode` produces no output at all and
`decode(encode(s)) == s` cannot hold at `s = []`; the order-0 path and the
reference implementation both handle the empty input. -/
theorem c1_order1_empty_input_panics :
    Aac.encode Aac.flagsOrder [] = .error .panicIndexOutOfBounds := rfl

/-- C7 counterexample: on the input `[0x00]` the maximum observed symbol is 0,
but the first byte of the order-0 body is 1 — the code writes
`max_sym + 1`, not the maximum symbol value. -/
theorem c7_counterexample :
    Aac.firstBodyByte (Aac.encodeOrder0 [0]) ≠ some 0 := by decide

/-- C7 (amended): for every input on which the order-0 or order-1 body encoder
succeeds, the first byte of the body is the maximum observed symbol value
**plus one**, reduced mod 256 (`max_sym + 1` written as a `u8`). -/
theorem c7_first_body_byte_is_max_plus_one :
    (∀ (src out : List Nat), Aac.encodeOrder0 src = .ok out →
      out.head? = some ((src.foldl Nat.max 0 + 1) % 256)) ∧
    (∀ (src out : List Nat), Aac.encodeOrder1 src = .ok out →
      out.head? = some ((src.foldl Nat.max 0 + 1) % 256)) := by
  constructor
  · intro src out h
    unfold Aac.encodeOrder0 at h
    split at h
    · simp at h
    · cases h
      rfl
  · intro src out h
    unfold Aac.encodeOrder1 at h
    split at h
    · simp at h
    · split at h
      · simp at h
      · cases h
        rfl

set_option maxRecDepth 100000 in
/-- Witness for C7 (amended), at the concrete input `[0x00]`. -/
theorem c7_witness :
    Aac.encodeOrder0 [0] = .ok [1, 0, 0, 0, 0, 0] ∧
    ([1, 0, 0, 0, 0, 0] : List Nat).head? =
      some ((([0] : List Nat).foldl Nat.max 0 + 1) % 256) ∧
    Aac.encodeOrder1 [0] = .ok [1, 0, 0, 0, 0, 0] ∧
    ([1, 0, 0, 0, 0, 0] : List Nat).head? =
      some ((([0] : List Nat).foldl Nat.max 0 + 1) % 256) :=
  ⟨rfl, c7_first_body_byte_is_max_plus_one.1 [0] [1, 0, 0, 0, 0, 0] rfl,
   rfl, c7_first_body_byte_is_max_plus_one.2 [0] [1, 0, 0, 0, 0, 0] rfl⟩

/-- C8 counterexample: with STRIPE set on the empty input, `encode` does not
return an UnsupportedFeature error — it hits the `todo!("encode_stripe")`
panic (modelled as `panicTodo`), so no error value is returned at all. -/
theorem c8_counterexample :
    Aac.encode Aac.flagsStripe [] ≠ .error .unsupportedFeature ∧
    Aac.encode Aac.flagsStripe [] = .error (.panicTodo .stripe) :=
  ⟨by decide, rfl⟩

/-- C8 (amended): `encode` with STRIPE set never produces output: it panics as
unimplemented (`todo!("encode_stripe")`), for every input and every other flag
combination; with RLE set and none of STRIPE, PACK, CAT, EXT set it likewise
panics as unimplemented, on `todo!("encode_rle_1")` when ORDER is also set and
`todo!("encode_rle_0")` otherwise — a panic, not a returned UnsupportedFeature
error. -/
theorem c8_stripe_rle_panic_unimplemented :
    (∀ (flags : Aac.Flags) (src : List Nat), flags.stripe = true →
      src.length < 4294967296 →
      Aac.encode flags src = .error (.panicTodo .stripe)) ∧
    (∀ (flags : Aac.Flags) (src : List Nat), flags.rle = true →
      flags.stripe = false → flags.pack = false → flags.cat = false →
      flags.ext = false → src.length < 4294967296 →
      Aac.encode flags src =
        .error (.panicTodo (if flags.order then .rle1 else .rle0))) := by
  constructor
  · intro flags src hs hlen
    have h32 : ¬ 4294967296 ≤ src.length := by omega
    simp [Aac.encode, hs, h32]
  · intro flags src hr hs hp hc he hlen
    have h32 : ¬ 4294967296 ≤ src.length := by omega
    simp [Aac.encode, hr, hs, hp, hc, he, h32]

/-- Witness for C8 (amended), at the concrete inputs (STRIPE, `[]`) and
(RLE, `[]`). -/
theorem c8_witness :
    Aac.encode Aac.flagsStripe [] = .error (.panicTodo .stripe) ∧
    Aac.encode Aac.flagsRle [] =
      .error (.panicTodo (if Aac.flagsRle.order then .rle1 else .rle0)) :=
  ⟨c8_stripe_rle_panic_unimplemented.1 Aac.flagsStripe [] rfl (by decide),
   c8_stripe_rle_panic_unimplemented.2 Aac.flagsRle [] rfl rfl rfl rfl rfl (by decide)⟩

end AacClaims

section SliceClaims

open SliceRecords

theorem positionOf_eq_none_of_not_mem {tagSet : List TagKey} :
    ∀ {sets : List (List TagKey)}, tagSet ∉ sets → positionOf tagSet sets = none := by
  intro sets
  induction sets with
  | nil => intro _; rfl
  | cons s rest ih =>
    intro h
    have h1 : ¬ s = tagSet := by
      intro he
      exact h (by rw [← he]; exact List.mem_cons_self s rest)
    unfold positionOf
    rw [if_neg h1, ih (fun hm => h (List.mem_cons_of_mem s hm))]

/-- C9: encoding a record whose ordered (tag key, value type) list does not
appear in the compression header's tag sets fails with the "missing tag set"
error (the spec's InvariantViolation), before the tag-set id or any tag value
is written — the tag is never silently dropped. -/
theorem c9_missing_tag_set_fails (header : TagsHeader)
    (data : List ((Nat × Nat) × TagValue))
    (h : tagSetOf data ∉ header.tagSets) :
    writeTags header data = .error .missingTagSet := by
  unfold writeTags
  rw [positionOf_eq_none_of_not_mem h]

/-- Witness for C9: a record carrying tag ("NH", Int8-coded) while the header
holds only the empty tag set. -/
theorem c9_witness :
    tagSetOf [((78, 72), { ty := 1, payload := [5] })] ∉
      ({ tagSets := [[]], hasTagSetIds := true,
         tagEncodingIds := [] } : TagsHeader).tagSets ∧
    writeTags { tagSets := [[]], hasTagSetIds := true, tagEncodingIds := [] }
      [((78, 72), { ty := 1, payload := [5] })] = .error .missingTagSet :=
  ⟨by decide,
   c9_missing_tag_set_fails _ [((78, 72), { ty := 1, payload := [5] })] (by decide)⟩

theorem mappedFeatureDeltasGo_cons (prev p : Nat) (rest : List Nat) :
    mappedFeatureDeltasGo prev (p :: rest) =
      if p < prev then none
      else
        match mappedFeatureDeltasGo p rest with
        | none => none
        | some ds => some ((p - prev) :: ds) := rfl

theorem mappedFeatureDeltasGo_isSome_iff (ps : List Nat) :
    ∀ (prev : Nat),
      (mappedFeatureDeltasGo prev ps).isSome = true ↔ List.Chain' (· ≤ ·) (prev :: ps) := by
  induction ps with
  | nil =>
    intro prev
    simp [mappedFeatureDeltasGo, List.chain'_singleton]
  | cons p rest ih =>
    intro prev
    rw [List.chain'_cons, ← ih p, mappedFeatureDeltasGo_cons]
    by_cases hlt : p < prev
    · rw [if_pos hlt]
      constructor
      · intro hfalse
        exact absurd hfalse (by simp)
      · intro hand
        exact absurd hand.1 (by omega)
    · rw [if_neg hlt]
      cases hgo : mappedFeatureDeltasGo p rest with
      | none => simp
      | some ds => simp; omega

/-- C10: encoding a mapped record's features never underflows the unchecked
`usize` subtraction exactly when the feature positions are nondecreasing:
`prev_position` starts at 0 and each wire position is the feature position
minus the previous one, so a decrease makes the subtraction underflow. -/
theorem c10_mapped_read_total_iff_nondecreasing (positions : List Nat) :
    (mappedFeatureDeltas positions).isSome = true ↔
      List.Chain' (· ≤ ·) positions := by
  rw [mappedFeatureDeltas, mappedFeatureDeltasGo_isSome_iff]
  cases positions with
  | nil => simp
  | cons p rest => rw [List.chain'_cons]; simp

end SliceClaims

section DeltaClaims

open SliceRecords

theorem startOrMissing_ok {o : Option Nat} (h : ∀ p, o = some p → p ≤ maxI32) :
    startOrMissing o = .ok (orZero o) := by
  cases o with
  | none => rfl
  | some p =>
    have hp := h p rfl
    simp [startOrMissing, positionToI32, hp, orZero]

theorem writeAlignmentStartValue_delta_ok {prev start : Option Nat}
    (hs : ∀ p, start = some p → p ≤ maxI32)
    (hp : ∀ p, prev = some p → p ≤ maxI32) :
    writeAlignmentStartValue true prev start = .ok (orZero start - orZero prev) := by
  unfold writeAlignmentStartValue
  rw [if_pos rfl, startOrMissing_ok hs, startOrMissing_ok hp]

theorem writeAPDeltas_cons (prev s0 : Option Nat) (rest : List (Option Nat)) :
    writeAPDeltas prev (s0 :: rest) =
      match writeAlignmentStartValue true prev s0 with
      | .error e => .error e
      | .ok d =>
        match writeAPDeltas s0 rest with
        | .error e => .error e
        | .ok ds => .ok (d :: ds) := rfl

theorem writeAPDeltas_spec (starts : List (Option Nat)) :
    ∀ (prev : Option Nat),
      (∀ p, some p ∈ starts → p ≤ maxI32) →
      (∀ p, prev = some p → p ≤ maxI32) →
      ∃ ds, writeAPDeltas prev starts = .ok ds ∧
        ds.length = starts.length ∧
        (∀ s, starts[0]? = some s → ds[0]? = some (orZero s - orZero prev)) ∧
        (∀ j s, starts[j + 1]? = some s →
          ds[j + 1]? = some (orZero s - orZero ((starts[j]?).getD none))) ∧
        (∀ k s, starts[k]? = some s →
          orZero prev + (ds.take (k + 1)).sum = orZero s) := by
  induction starts with
  | nil =>
    intro prev _ _
    exact ⟨[], rfl, rfl, by simp, by simp, by simp⟩
  | cons s0 rest ih =>
    intro prev hb hprev
    have hs0 : ∀ p, s0 = some p → p ≤ maxI32 := fun p hp =>
      hb p (by rw [hp] at *; exact List.mem_cons_self _ _)
    have hrest : ∀ p, some p ∈ rest → p ≤ maxI32 := fun p hp =>
      hb p (List.mem_cons_of_mem _ hp)
    obtain ⟨ds, hds, hlen, h0, hsucc, hsum⟩ := ih s0 hrest hs0
    refine ⟨(orZero s0 - orZero prev) :: ds, ?_, ?_, ?_, ?_, ?_⟩
    · rw [writeAPDeltas_cons, writeAlignmentStartValue_delta_ok hs0 hprev, hds]
    · simp [hlen]
    · intro s hs
      simp only [List.getElem?_cons_zero, Option.some.injEq] at hs
      subst hs
      simp
    · intro j s hs
      cases j with
      | zero =>
        simp only [List.getElem?_cons_succ] at hs
        simp only [List.getElem?_cons_succ, List.getElem?_cons_zero, Option.getD_some]
        exact h0 s hs
      | succ jj =>
        simp only [List.getElem?_cons_succ] at hs
        simp only [List.getElem?_cons_succ]
        exact hsucc jj s hs
    · intro k s hs
      cases k with
      | zero =>
        simp only [List.getElem?_cons_zero, Option.some.injEq] at hs
        subst hs
        simp only [List.take_succ_cons, List.take_zero, List.sum_cons, List.sum_nil]
        omega
      | succ kk =>
        simp only [List.getElem?_cons_succ] at hs
        have hrec := hsum kk s hs
        simp only [List.take_succ_cons, List.sum_cons]
        omega

/-- C3: with delta-coded alignment starts, `write_record` encodes record `k`'s
alignment-start value as its start minus the previous encoded record's start
(a missing start contributing 0 on either side); the baseline before the first
record is the reference-sequence context's initial alignment start when the
context is a single reference, and there is no baseline when the context is
none or many; `prev_alignment_start` is updated to each record's alignment
start after every record, so the running sums of the encoded deltas reproduce
every present absolute alignment start. -/
theorem c3_alignment_start_deltas (ctx : ReferenceSequenceContext)
    (starts : List (Option Nat))
    (hstarts : ∀ p, some p ∈ starts → p ≤ maxI32)
    (hctx : ∀ p, initialAlignmentStart ctx = some p → p ≤ maxI32) :
    initialAlignmentStart .ctxNone = none ∧
    initialAlignmentStart .ctxMany = none ∧
    ∃ ds, writeSliceAPDeltas ctx starts = .ok ds ∧
      ds.length = starts.length ∧
      (∀ k s, starts[k]? = some s →
        ds[k]? = some (orZero s - orZero (prevStartAt ctx starts k))) ∧
      (∀ k p, starts[k]? = some (some p) →
        orZero (initialAlignmentStart ctx) + (ds.take (k + 1)).sum = Int.ofNat p) := by
  refine ⟨rfl, rfl, ?_⟩
  obtain ⟨ds, hds, hlen, h0, hsucc, hsum⟩ :=
    writeAPDeltas_spec starts (initialAlignmentStart ctx) hstarts hctx
  refine ⟨ds, hds, hlen, ?_, ?_⟩
  · intro k s hk
    cases k with
    | zero => exact h0 s hk
    | succ j => exact hsucc j s hk
  · intro k p hk
    exact hsum k (some p) hk

/-- Witness for C3: a single-reference context starting at 100 and the slice
`[some 105, none, some 110]`. -/
theorem c3_witness :
    SliceRecords.initialAlignmentStart .ctxNone = none ∧
    SliceRecords.initialAlignmentStart .ctxMany = none ∧
    ∃ ds,
      SliceRecords.writeSliceAPDeltas (.ctxSome 100) [some 105, none, some 110] =
        .ok ds ∧
      ds.length = ([some 105, none, some 110] : List (Option Nat)).length ∧
      (∀ k s, ([some 105, none, some 110] : List (Option Nat))[k]? = some s →
        ds[k]? = some (SliceRecords.orZero s -
          SliceRecords.orZero
            (SliceRecords.prevStartAt (.ctxSome 100) [some 105, none, some 110] k))) ∧
      (∀ k p, ([some 105, none, some 110] : List (Option Nat))[k]? = some (some p) →
        SliceRecords.orZero
            (SliceRecords.initialAlignmentStart (.ctxSome 100)) +
          (ds.take (k + 1)).sum = Int.ofNat p) :=
  c3_alignment_start_deltas (.ctxSome 100) [some 105, none, some 110]
    (by intro p hp; simp at hp; simp only [SliceRecords.maxI32]; omega)
    (by
      intro p hp
      simp [SliceRecords.initialAlignmentStart] at hp
      simp only [SliceRecords.maxI32]
      omega)

end DeltaClaims

section FrequencyTableClaims

open RansNx16

theorem specZeros_zero (bs : List Bool) (reader : List Nat) :
    specZeros 0 bs reader = specRowFull bs reader := by
  simp [specZeros]

theorem parseRow_eq_specZeros :
    ∀ (bs : List Bool) (run : Nat) (reader : List Nat),
      parseRow run bs reader = specZeros run bs reader := by
  intro bs
  induction bs with
  | nil =>
    intro run reader
    cases run <;> simp [parseRow, specZeros, specRowFull]
  | cons b bs ih =>
    intro run reader
    cases b <;> cases run <;>
      simp only [parseRow, specZeros, specRowFull, ih] <;> simp

theorem parseRow_length :
    ∀ (bs : List Bool) (run : Nat) (reader row r1 : _),
      parseRow run bs reader = some (row, r1) → row.length = bs.length := by
  intro bs
  induction bs with
  | nil =>
    intro run reader row r1 h
    simp only [parseRow] at h
    cases h
    rfl
  | cons b bs ih =>
    intro run reader row r1 h
    simp only [parseRow] at h
    split at h
    · split at h
      · split at h
        · exact absurd h (by simp)
        · cases h
          simp only [List.length_cons]
          rename_i heq
          rw [ih _ _ _ _ heq]
      · split at h
        · exact absurd h (by simp)
        · split at h
          · split at h
            · exact absurd h (by simp)
            · split at h
              · exact absurd h (by simp)
              · cases h
                simp only [List.length_cons]
                rename_i heq
                rw [ih _ _ _ _ heq]
          · split at h
            · exact absurd h (by simp)
            · cases h
              simp only [List.length_cons]
              rename_i heq
              rw [ih _ _ _ _ heq]
    · split at h
      · exact absurd h (by simp)
      · cases h
        simp only [List.length_cons]
        rename_i heq
        rw [ih _ _ _ _ heq]

theorem normAux_length (total target : Nat) :
    ∀ (l : List Nat) (acc : Nat), (normAux total target l acc).length = l.length := by
  intro l
  induction l with
  | nil => intro acc; rfl
  | cons f rest ih => intro acc; simp [normAux, ih]

theorem normalizeFrequencies_length (l : List Nat) (bits : Nat) :
    (normalizeFrequencies l bits).length = l.length := by
  unfold normalizeFrequencies
  split
  · rfl
  · exact normAux_length _ _ l 0

theorem normAux_sum (total target : Nat) :
    ∀ (l : List Nat) (acc : Nat),
      (normAux total target l acc).sum =
        (acc + l.sum) * target / total - acc * target / total := by
  intro l
  induction l with
  | nil => intro acc; simp [normAux]
  | cons f rest ih =>
    intro acc
    simp only [normAux, List.sum_cons, ih (acc + f)]
    have h1 : acc * target / total ≤ (acc + f) * target / total :=
      Nat.div_le_div_right (Nat.mul_le_mul_right _ (by omega))
    have h2 : (acc + f) * target / total ≤ (acc + f + rest.sum) * target / total :=
      Nat.div_le_div_right (Nat.mul_le_mul_right _ (by omega))
    have h3 : acc + (f + rest.sum) = acc + f + rest.sum := by omega
    rw [h3]
    omega

theorem normalizeFrequencies_sum {l : List Nat} {bits : Nat} (h : l.sum ≠ 0) :
    (normalizeFrequencies l bits).sum = 2 ^ bits := by
  unfold normalizeFrequencies
  rw [if_neg h, normAux_sum]
  simp only [Nat.zero_add, Nat.zero_mul, Nat.zero_div, Nat.sub_zero]
  exact Nat.mul_div_cancel_left _ (by omega)

theorem buildCumGo_eq (t : List Nat) :
    ∀ acc, buildCumGo acc t =
      (List.range (t.length + 1)).map (fun j => acc + (t.take j).sum) := by
  induction t with
  | nil =>
    intro acc
    simp [buildCumGo]
  | cons f rest ih =>
    intro acc
    simp only [buildCumGo, List.length_cons]
    conv_rhs => rw [List.range_succ_eq_map]
    simp only [List.map_cons, List.map_map]
    rw [ih (acc + f)]
    refine List.cons_eq_cons.mpr ⟨by simp, ?_⟩
    apply List.map_congr_left
    intro j _
    simp only [Function.comp_apply, List.take_succ_cons, List.sum_cons]
    omega

theorem buildCum_eq_cumSpec {l : List Nat} (hl : l.length = 256) :
    buildCum l = cumSpec l := by
  unfold buildCum cumSpec
  rw [buildCumGo_eq]
  have hlen : (l.take 255).length = 255 := by
    rw [List.length_take]
    omega
  rw [hlen]
  have h256 : (255 : Nat) + 1 = 256 := rfl
  rw [h256]
  apply List.map_congr_left
  intro j hj
  rw [List.mem_range] at hj
  rw [List.take_take, Nat.min_eq_left (by omega)]
  simp

theorem byteBits_length (b : Nat) : (byteBits b).length = 8 := by
  simp [byteBits]

theorem flatMap_byteBits_length :
    ∀ (l : List Nat), (l.flatMap byteBits).length = 8 * l.length := by
  intro l
  induction l with
  | nil => rfl
  | cons b rest ih =>
    simp only [List.flatMap_cons, List.length_append, byteBits_length, ih,
      List.length_cons]
    omega

theorem readAlphabet_length {reader : List Nat} {alphabet : List Bool}
    {r1 : List Nat} (h : readAlphabet reader = some (alphabet, r1)) :
    alphabet.length = 256 := by
  unfold readAlphabet at h
  split at h
  · cases h
    rw [flatMap_byteBits_length, List.length_take]
    omega
  · exact absurd h (by simp)

theorem readRows_eq_spec (bits : Nat) (alphabet : List Bool)
    (h256 : alphabet.length = 256) :
    ∀ (is reader : List Nat),
      readRows bits alphabet is reader = readRowsSpec bits alphabet is reader := by
  intro is
  induction is with
  | nil => intro reader; rfl
  | cons i is ih =>
    intro reader
    simp only [readRows, readRowsSpec]
    rw [parseRow_eq_specZeros, specZeros_zero]
    split
    · rfl
    · rename_i raw r1 hrow
      have hraw : parseRow 0 alphabet reader = some (raw, r1) := by
        rw [parseRow_eq_specZeros, specZeros_zero, hrow]
      have hlen : (normalizeFrequencies raw bits).length = 256 := by
        rw [normalizeFrequencies_length, parseRow_length _ _ _ _ _ hraw, h256]
      rw [ih r1]
      split
      · rfl
      · rw [buildCum_eq_cumSpec hlen]

theorem readFrequenciesInner_eq_spec (bits : Nat) (reader : List Nat) :
    readFrequenciesInner bits reader = readFrequenciesInnerSpec bits reader := by
  unfold readFrequenciesInner readFrequenciesInnerSpec
  cases ha : readAlphabet reader with
  | none => rfl
  | some pr =>
    obtain ⟨alphabet, r1⟩ := pr
    exact readRows_eq_spec bits alphabet (readAlphabet_length ha) _ r1

/-- C5: the order-1 frequency-table reader realizes exactly the wire format of
the claim: the control byte's top nibble is the renormalization bit-width and its
bit 0 the "table is itself order-0 compressed" flag; in the compressed case
the uncompressed then the compressed length are read as uint7, the compressed
bytes are decoded with a 4-lane order-0 decode, and the tables are parsed from
the resulting bytes; within a table each present symbol's frequency is a uint7,
and a zero frequency is followed by one run-length byte assigning frequency 0
to that many subsequent present symbols without further reads. -/
theorem c5_read_frequencies_wire_format (reader : List Nat) :
    readFrequencies reader = readFrequenciesSpec reader := by
  cases hc : readU8 reader with
  | none => simp [readFrequencies, readFrequenciesSpec, hc]
  | some pr =>
    obtain ⟨comp, r1⟩ := pr
    simp only [readFrequencies, readFrequenciesSpec, hc]
    have hbits : comp >>> 4 = comp / 16 := by
      rw [Nat.shiftRight_eq_div_pow]
    have hflag : (comp &&& 1 ≠ 0) ↔ (comp % 2 = 1) := by
      rw [Nat.and_one_is_mod]
      omega
    rw [hbits]
    by_cases hcomp : comp % 2 = 1
    · rw [if_pos (hflag.mpr hcomp), if_pos hcomp]
      split
      · rfl
      · split
        · rfl
        · split
          · rfl
          · split
            · rfl
            · rw [readFrequenciesInner_eq_spec]
    · rw [if_neg (fun hx => hcomp (hflag.mp hx)), if_neg hcomp,
        readFrequenciesInner_eq_spec]

theorem normalizeFrequencies_of_sum_zero {l : List Nat} {bits : Nat}
    (h : l.sum = 0) : normalizeFrequencies l bits = l := by
  unfold normalizeFrequencies
  rw [if_pos h]

theorem readRows_rows_property (bits : Nat) (alphabet : List Bool)
    (h256 : alphabet.length = 256) :
    ∀ (is reader : List Nat) (rows : FreqTable) (rest : List Nat),
      readRows bits alphabet is reader = some (rows, rest) →
      ∀ i f c, (i, f, c) ∈ rows →
        (f.sum ≠ 0 → f.sum = 2 ^ bits) ∧ c = cumSpec f := by
  intro is
  induction is with
  | nil =>
    intro reader rows rest h i f c hmem
    simp only [readRows] at h
    cases h
    exact absurd hmem (by simp)
  | cons i0 is ih =>
    intro reader rows rest h i f c hmem
    simp only [readRows] at h
    split at h
    · exact absurd h (by simp)
    · rename_i raw r1 hrow
      split at h
      · exact absurd h (by simp)
      · rename_i rows2 r2 hrows
        cases h
        rcases List.mem_cons.mp hmem with heq | hmem2
        · injection heq with h1 h23
          injection h23 with h2 h3
          subst h1
          subst h2
          subst h3
          have hlen : (normalizeFrequencies raw bits).length = 256 := by
            rw [normalizeFrequencies_length, parseRow_length _ _ _ _ _ hrow, h256]
          refine ⟨?_, buildCum_eq_cumSpec hlen⟩
          intro hne
          by_cases hraw0 : raw.sum = 0
          · rw [normalizeFrequencies_of_sum_zero hraw0] at hne
            exact absurd hraw0 hne
          · exact normalizeFrequencies_sum hraw0
        · exact ih r1 _ _ hrows i f c hmem2

theorem readFrequenciesInner_rows_property (bits : Nat)
    (reader : List Nat) (rows : FreqTable) (rest : List Nat)
    (h : readFrequenciesInner bits reader = some (rows, rest)) :
    ∀ i f c, (i, f, c) ∈ rows →
      (f.sum ≠ 0 → f.sum = 2 ^ bits) ∧ c = cumSpec f := by
  unfold readFrequenciesInner at h
  split at h
  · exact absurd h (by simp)
  · rename_i alphabet r1 ha
    exact readRows_rows_property bits alphabet (readAlphabet_length ha) _ r1 rows rest h

/-- C6: every context row parsed by the order-1 frequency-table reader is
normalized so that its 256 entries sum to exactly `2 ^ bits` (`bits` taken
from the control byte; a row whose entries vanish entirely — an empty input —
is the one carve-out the spec itself makes), and its cumulative-frequency
array is the prefix sum of the normalized frequencies
(`cum[0] = 0`, `cum[j+1] = cum[j] + freq[j]`). -/
theorem c6_rows_normalized_and_cumulative (reader : List Nat)
    (rows : FreqTable) (bits : Nat) (rest : List Nat)
    (hparse : readFrequencies reader = some (rows, bits, rest))
    (i : Nat) (f c : List Nat) (hmem : (i, f, c) ∈ rows) (hsum : f.sum ≠ 0) :
    f.sum = 2 ^ bits ∧ c = cumSpec f := by
  cases hc : readU8 reader with
  | none => rw [readFrequencies, hc] at hparse; exact absurd hparse (by simp)
  | some pr =>
    obtain ⟨comp, r1⟩ := pr
    rw [readFrequencies, hc] at hparse
    simp only at hparse
    split at hparse
    · split at hparse
      · exact absurd hparse (by simp)
      · split at hparse
        · exact absurd hparse (by simp)
        · split at hparse
          · exact absurd hparse (by simp)
          · split at hparse
            · exact absurd hparse (by simp)
            · split at hparse
              · exact absurd hparse (by simp)
              · rename_i hinner
                cases hparse
                obtain ⟨hs, hcum⟩ :=
                  readFrequenciesInner_rows_property _ _ _ _ hinner i f c hmem
                exact ⟨hs hsum, hcum⟩
    · split at hparse
      · exact absurd hparse (by simp)
      · rename_i hinner
        cases hparse
        obtain ⟨hs, hcum⟩ :=
          readFrequenciesInner_rows_property _ _ _ _ hinner i f c hmem
        exact ⟨hs hsum, hcum⟩

set_option maxRecDepth 100000 in
/-- Witness for C6: a one-symbol alphabet (symbol 0) with raw frequency 5 and
bit width 4; the normalized row sums to 16 = 2^4 and the cumulative row is its
prefix sum. -/
theorem c6_witness :
    (16 :: List.replicate 255 0 : List Nat).sum = 2 ^ 4 ∧
    (0 :: List.replicate 255 16 : List Nat) =
      RansNx16.cumSpec (16 :: List.replicate 255 0) :=
  c6_rows_normalized_and_cumulative
    (0x40 :: 0x01 :: (List.replicate 31 0 ++ [5]))
    [(0, 16 :: List.replicate 255 0, 0 :: List.replicate 255 16)] 4 []
    (by decide)
    0 (16 :: List.replicate 255 0) (0 :: List.replicate 255 16)
    (by simp)
    (by decide)

end FrequencyTableClaims

section InterleavedClaims

open RansNx16

theorem mainLoopGo_eq_specCycles (tbl : FreqTable) (bits len n : Nat) :
    ∀ (k i : Nat), len / n - i = k → ∀ st,
      mainLoopGo tbl bits len n i st = specCyclesGo tbl bits len n i k st := by
  intro k
  induction k with
  | zero =>
    intro i hi st
    have hni : ¬ i < len / n := by omega
    rw [mainLoopGo.eq_def, if_neg hni]
    rfl
  | succ m ihm =>
    intro i hi st
    have hlt : i < len / n := by omega
    rw [mainLoopGo.eq_def, if_pos hlt]
    simp only [specCyclesGo]
    cases cycleLanes tbl bits len n i (List.range n) st with
    | none => rfl
    | some st1 => exact ihm (i + 1) (by omega) st1

theorem tailLoopGo_eq_specTail (tbl : FreqTable) (bits len n : Nat) :
    ∀ (k i : Nat), len - i = k → ∀ st,
      tailLoopGo tbl bits len n i st = specTailGo tbl bits len n i k st := by
  intro k
  induction k with
  | zero =>
    intro i hi st
    have hni : ¬ i < len := by omega
    rw [tailLoopGo.eq_def, if_neg hni]
    obtain ⟨states, lastSyms, output, reader⟩ := st
    rfl
  | succ m ihm =>
    intro i hi st
    have hlt : i < len := by omega
    obtain ⟨states, lastSyms, output, reader⟩ := st
    rw [tailLoopGo.eq_def, if_pos hlt]
    simp only [specTailGo]
    cases laneStep tbl bits (lastSyms.getD (n - 1) 0) (states.getD (n - 1) 0) reader with
    | none => rfl
    | some s3 =>
      obtain ⟨s, st2, r1⟩ := s3
      exact ihm (i + 1) (by omega) _

/-- C4: the interleaved order-1 decoder has exactly the claim's shape — after
the frequency tables, the n lane states are initialized from n little-endian
32-bit words; one symbol is produced per lane per cycle for exactly
`len / n` cycles; the remaining `len % n` symbols are produced by continuing
to drive only lane `n - 1`; every step selects the symbol via the cumulative
table of the lane's previously decoded symbol (context 0 initially) and
renormalizes from the input stream. Stated as extensional equality of the
source-shaped `decode` and the claim-shaped `decodeSpec`. -/
theorem c4_decode_interleaving (reader output : List Nat) (n : Nat)
    (h : 1 ≤ n) :
    decode reader output n = decodeSpec reader output n := by
  unfold decode decodeSpec
  have hn : ¬ n = 0 := by omega
  rw [if_neg hn, if_neg hn]
  cases readFrequencies reader with
  | none => rfl
  | some pr =>
    obtain ⟨tbl, bits, r1⟩ := pr
    show (match readStatesGo n r1 with
      | none => none
      | some (states, r2) =>
        match mainLoopGo tbl bits output.length n 0
            (states, List.replicate n 0, output, r2) with
        | none => none
        | some st1 =>
          match tailLoopGo tbl bits output.length n
              ((output.length / n) * n) st1 with
          | none => none
          | some (_, _, output1, _) => some output1) =
      (match readStatesGo n r1 with
      | none => none
      | some (states, r2) =>
        match specCyclesGo tbl bits output.length n 0 (output.length / n)
            (states, List.replicate n 0, output, r2) with
        | none => none
        | some st1 =>
          match specTailGo tbl bits output.length n (n * (output.length / n))
              (output.length % n) st1 with
          | none => none
          | some (_, _, output1, _) => some output1)
    cases readStatesGo n r1 with
    | none => rfl
    | some pr2 =>
      obtain ⟨states, r2⟩ := pr2
      show (match mainLoopGo tbl bits output.length n 0
            (states, List.replicate n 0, output, r2) with
        | none => none
        | some st1 =>
          match tailLoopGo tbl bits output.length n
              ((output.length / n) * n) st1 with
          | none => none
          | some (_, _, output1, _) => some output1) =
        (match specCyclesGo tbl bits output.length n 0 (output.length / n)
            (states, List.replicate n 0, output, r2) with
        | none => none
        | some st1 =>
          match specTailGo tbl bits output.length n (n * (output.length / n))
              (output.length % n) st1 with
          | none => none
          | some (_, _, output1, _) => some output1)
      rw [mainLoopGo_eq_specCycles tbl bits output.length n (output.length / n) 0
        (Nat.sub_zero _) (states, List.replicate n 0, output, r2)]
      cases specCyclesGo tbl bits output.length n 0 (output.length / n)
          (states, List.replicate n 0, output, r2) with
      | none => rfl
      | some st1 =>
        show (match tailLoopGo tbl bits output.length n
              ((output.length / n) * n) st1 with
          | none => none
          | some (_, _, output1, _) => some output1) =
          (match specTailGo tbl bits output.length n (n * (output.length / n))
              (output.length % n) st1 with
          | none => none
          | some (_, _, output1, _) => some output1)
        have hmod : output.length - (output.length / n) * n = output.length % n := by
          rw [Nat.mod_def, Nat.mul_comm n (output.length / n)]
        rw [tailLoopGo_eq_specTail tbl bits output.length n (output.length % n)
          ((output.length / n) * n) hmod st1]
        rw [Nat.mul_comm (output.length / n) n]

/-- Witness for C4, at one lane and the empty buffers. -/
theorem c4_witness :
    RansNx16.decode [] [] 1 = RansNx16.decodeSpec [] [] 1 :=
  c4_decode_interleaving [] [] 1 (by decide)

end InterleavedClaims
